import Mathlib

/-!
Shallow embedding of the PDF structure-inference engine (`process_pdfs.py`).

Pure text transformations operate on `List Char`; Python's `str` methods and
the regular expressions used by the source are translated to explicit,
executable character-list functions.  Unicode-dependent character classes
(`\s`, `\w`, `\d`, `\p{N}`, `str.lower`) are modelled on the finite fragment
that the development exercises: ASCII plus the bullet glyphs and the
Roman-numeral block (category `Nl`, which is in `\p{N}` but not in `\d`).
Font sizes enter the pipeline already rounded (`round(span['size'])` in the
source); the embedding therefore carries the rounded size as an `Int`.
-/

set_option autoImplicit false

/-- Whitespace recognised by `str.strip` and `\s` (ASCII fragment). -/
def isPySpace (c : Char) : Bool :=
  c = ' ' || c = '\t' || c = '\n' || c = '\r' || c = '\x0b' || c = '\x0c'

/-- Python `str.strip` on a character list. -/
def pyStripL (cs : List Char) : List Char :=
  ((cs.dropWhile isPySpace).reverse.dropWhile isPySpace).reverse

/-- Python `str.strip` on strings. -/
def pyStrip (s : String) : String :=
  String.mk (pyStripL s.data)

/-- Python `str.split('\n')`: keeps empty pieces, `[""]` on the empty string. -/
def splitLines : List Char → List (List Char)
  | [] => [[]]
  | c :: rest =>
    if c = '\n' then [] :: splitLines rest
    else
      match splitLines rest with
      | l :: ls => (c :: l) :: ls
      | [] => [[c]]

/-- Python `str.split('/')` (for path components): keeps empty pieces. -/
def splitSlash : List Char → List (List Char)
  | [] => [[]]
  | c :: rest =>
    if c = '/' then [] :: splitSlash rest
    else
      match splitSlash rest with
      | l :: ls => (c :: l) :: ls
      | [] => [[c]]

/-- Python `sub in s` (substring containment). -/
def listContainsSub : List Char → List Char → Bool
  | [], pat => pat.isEmpty
  | c :: rest, pat => pat.isPrefixOf (c :: rest) || listContainsSub rest pat

/-- Substring containment on strings. -/
def containsSub (s pat : String) : Bool :=
  listContainsSub s.data pat.data

/-- Python `str.replace(pat, rep)`: left-to-right, non-overlapping, every
occurrence (for a non-empty pattern).  Fuel decreases once per step while at
least one input character is consumed, so `length + 1` fuel is never
exhausted. -/
def replaceAllLAux (pat rep : List Char) : Nat → List Char → List Char
  | 0, cs => cs
  | _ + 1, [] => []
  | fuel + 1, c :: rest =>
    if pat.isPrefixOf (c :: rest) && !pat.isEmpty then
      rep ++ replaceAllLAux pat rep fuel ((c :: rest).drop pat.length)
    else c :: replaceAllLAux pat rep fuel rest

/-- `str.replace` on character lists. -/
def replaceAllL (pat rep cs : List Char) : List Char :=
  replaceAllLAux pat rep (cs.length + 1) cs

/-- `str.replace` on strings. -/
def pyReplace (s pat rep : String) : String :=
  String.mk (replaceAllL pat.data rep.data s.data)

/- ## Data model: the PDF parser's structured text (collaborator output) -/

/-- One styled text run; `size` is the already-rounded font size. -/
structure Span where
  text : String
  size : Int
  flags : Nat
  deriving DecidableEq, Repr

/-- One line of a block. -/
structure TextLine where
  spans : List Span
  deriving DecidableEq, Repr

/-- Bounding-box coordinates, carried through untouched. -/
structure BBox where
  x0 : Int
  y0 : Int
  x1 : Int
  y1 : Int
  deriving DecidableEq, Repr

/-- One block as reported by `page.get_text("dict")`; `btype = 0` is text. -/
structure Block where
  btype : Nat
  lines : List TextLine
  bbox : BBox
  deriving DecidableEq, Repr

/-- An interactive form widget on a page. -/
structure Widget where
  field_name : String
  field_type_string : String
  field_value : String
  deriving DecidableEq, Repr

/-- One page: its plain text, its structured blocks, and its widgets. -/
structure Page where
  text : String
  blocks : List Block
  widgets : List Widget
  deriving DecidableEq, Repr

/-- A parsed document handle: metadata title, pages, embedded ToC entries
`(level, title, page)`. -/
structure Doc where
  metaTitle : Option String
  pages : List Page
  toc : List (Int × String × Int)
  deriving DecidableEq, Repr

/-- Style key `(round(span['size']), span['flags'] & 1)`. -/
abbrev StyleKey := Int × Nat

/-- The style histogram: an association list in insertion order, matching
`collections.Counter` (a dict preserving insertion order). -/
abbrev Hist := List (StyleKey × Nat)

/-- A block after scanning: leading style, joined text, 1-based page, bbox. -/
structure ScannedBlock where
  style : StyleKey
  text : String
  page : Nat
  bbox : BBox
  deriving DecidableEq, Repr

/-- `styles[style_key] += w`: add weight to a key, inserting new keys at the
end (dict insertion order). -/
def addCount : Hist → StyleKey → Nat → Hist
  | [], k, w => [(k, w)]
  | (k', c) :: rest, k, w =>
    if k' = k then (k', c + w) :: rest else (k', c) :: addCount rest k w

/-- The joined text of a block: `" ".join(span texts).strip()`. -/
def blockText (b : Block) : String :=
  pyStrip (String.intercalate " " ((b.lines.map TextLine.spans).flatten.map Span.text))

/-- `block['lines'][0]['spans'][0]`, when it exists. -/
def firstSpan (b : Block) : Option Span :=
  b.lines.head?.bind (fun l => l.spans.head?)

/-- Scan the blocks of one page (1-based page number `pn`), accumulating the
style histogram and the block list.  A type-0 block with non-empty joined
text but no first span raises `IndexError` in the source, which aborts the
document: modelled by `none`. -/
def scanBlocksAux : Nat → List Block → Hist → List ScannedBlock →
    Option (Hist × List ScannedBlock)
  | _, [], st, bl => some (st, bl)
  | pn, b :: bs, st, bl =>
    if b.btype = 0 then
      let t := blockText b
      if t = "" then scanBlocksAux pn bs st bl
      else
        match firstSpan b with
        | none => none
        | some sp =>
          let key : StyleKey := (sp.size, sp.flags % 2)
          scanBlocksAux pn bs (addCount st key t.length)
            (bl ++ [⟨key, t, pn, b.bbox⟩])
    else scanBlocksAux pn bs st bl

/-- Scan all pages (`pn` is the 0-based index of the next page), threading the
histogram, block list and concatenated full text. -/
def scanPagesAux : Nat → List Page → Hist → List ScannedBlock → String →
    Option (Hist × List ScannedBlock × String)
  | _, [], st, bl, ft => some (st, bl, ft)
  | pn, p :: ps, st, bl, ft =>
    match scanBlocksAux (pn + 1) p.blocks st bl with
    | none => none
    | some (st', bl') => scanPagesAux (pn + 1) ps st' bl' (ft ++ p.text ++ "\n")

/-- Phase 1 of `extract_content_and_outline`: histogram, blocks, full text. -/
def scanDoc (d : Doc) : Option (Hist × List ScannedBlock × String) :=
  scanPagesAux 0 d.pages [] [] ""

/- ## Body/heading style classification -/

/-- One step of Python `max(..., key=count)`: replace only on strictly
greater count, so ties keep the earlier entry. -/
def pickEntry (b x : StyleKey × Nat) : StyleKey × Nat :=
  if x.2 > b.2 then x else b

/-- `max` over a non-empty list of histogram entries. -/
def pickMax (e : StyleKey × Nat) (es : Hist) : StyleKey × Nat :=
  es.foldl pickEntry e

/-- `styles.most_common(1)[0]`: the first entry with maximal count
(`heapq.nlargest(1, ...)` is `max` with first-wins ties). -/
def most_common1 : Hist → Option (StyleKey × Nat)
  | [] => none
  | e :: es => some (pickMax e es)

/-- `{s for s in styles if s[0] > body[0] or (s[0] == body[0] and s[1] > body[1])}`. -/
def heading_styles (st : Hist) (body : StyleKey) : List StyleKey :=
  (st.map Prod.fst).filter
    (fun s => decide (body.1 < s.1) || (decide (s.1 = body.1) && decide (body.2 < s.2)))

/-- Insert into a strictly-descending list, dropping duplicates. -/
def insertDesc (x : Int) : List Int → List Int
  | [] => [x]
  | y :: ys =>
    if x > y then x :: y :: ys
    else if x = y then y :: ys
    else y :: insertDesc x ys

/-- `sorted({s[0] for s in heading_styles}, reverse=True)`: the distinct
heading font sizes in strictly descending order. -/
def sorted_heading_sizes (hs : List StyleKey) : List Int :=
  (hs.map Prod.fst).foldl (fun acc x => insertDesc x acc) []

/-- `{size: f"H{i+1}" for i, size in enumerate(sizes)}` (as an ordered list),
starting the enumeration at `k`. -/
def levelMapAux : Nat → List Int → List (Int × String)
  | _, [] => []
  | k, s :: ss => (s, "H" ++ toString (k + 1)) :: levelMapAux (k + 1) ss

/-- The heading level-label map. -/
def level_map (sizes : List Int) : List (Int × String) :=
  levelMapAux 0 sizes

/-- Python `list.index`: index of the first occurrence (total; only used on
members, exactly as the source only calls `.index` on a present size). -/
def listIndex (x : Int) : List Int → Nat
  | [] => 0
  | y :: ys => if y = x then 0 else listIndex x ys + 1

/- ## Line-level bullet matcher -/

/-- The bullet glyph class `[•●-]` (the final `-` is literal). -/
def bulletChars : List Char := ['\u2022', '\u25CF', '\uF0B7', '-']

/-- `bullet_pattern.match(line.strip())` for `^\s*([•●-])\s+(.*)`:
after stripping, `\s*` matches empty, then one bullet glyph, at least one
whitespace character (consumed greedily), and group 2 takes the remaining
characters up to a newline (`.` does not match a newline). -/
def bulletMatchL (line : List Char) : Option (List Char) :=
  match pyStripL line with
  | [] => none
  | c :: rest =>
    if bulletChars.contains c then
      match rest with
      | [] => none
      | d :: _ =>
        if isPySpace d then some ((rest.dropWhile isPySpace).takeWhile (fun e => !(e = '\n')))
        else none
    else none

/- ## Regex search combinators for the block classifier

A matcher maps an input to the list of possible remainders after consuming a
match; `searchAny` renders `re.search` decidable. -/

/-- Match one character satisfying `p`. -/
def mOne (p : Char → Bool) : List Char → List (List Char)
  | [] => []
  | c :: rest => if p c then [rest] else []

/-- Match one or more characters satisfying `p` (all split points). -/
def mPlus (p : Char → Bool) : List Char → List (List Char)
  | [] => []
  | c :: rest => if p c then rest :: mPlus p rest else []

/-- Match a literal string. -/
def mLit (pat : List Char) (cs : List Char) : List (List Char) :=
  if pat.isPrefixOf cs then [cs.drop pat.length] else []

/-- Sequence two matchers. -/
def mSeq (m1 m2 : List Char → List (List Char)) (cs : List Char) : List (List Char) :=
  (m1 cs).flatMap m2

/-- Does the pattern match starting anywhere in the input (`re.search`)? -/
def searchAny (m : List Char → List (List Char)) : List Char → Bool
  | [] => !(m []).isEmpty
  | c :: rest => !(m (c :: rest)).isEmpty || searchAny m rest

/-- `\d` of the classifier patterns (ASCII fragment of category Nd). -/
def isNd (c : Char) : Bool := c.isDigit

/-- The character class `[a-z]`. -/
def isLowerAZ (c : Char) : Bool := 'a' ≤ c && c ≤ 'z'

/-- The pattern `www\..+\.com`. -/
def websitePattern : List Char → List (List Char) :=
  mSeq (mLit "www.".data) (mSeq (mPlus (fun c => !(c = '\n'))) (mLit ".com".data))

/-- The pattern `\d+\s+[a-z\s]+,\s+[a-z]{2}\s+\d+`. -/
def addressPattern : List Char → List (List Char) :=
  mSeq (mPlus isNd) (mSeq (mPlus isPySpace)
    (mSeq (mPlus (fun c => isLowerAZ c || isPySpace c)) (mSeq (mLit [','])
      (mSeq (mPlus isPySpace) (mSeq (mOne isLowerAZ) (mSeq (mOne isLowerAZ)
        (mSeq (mPlus isPySpace) (mPlus isNd))))))))

/-- `classify_content_block`: ordered first-match-wins semantic rules over the
lowercased block text. -/
def classify_content_block (block_text : String) : String :=
  let low := block_text.data.map Char.toLower
  if searchAny websitePattern low then "website"
  else if listContainsSub low "address:".data || searchAny addressPattern low then "address"
  else if listContainsSub low "rsvp:".data then "rsvp"
  else "paragraph"

/- ## Output records -/

/-- One content section record. -/
structure ContentSection where
  type : String
  content : String
  page : Nat
  bbox : BBox
  level : Int
  deriving DecidableEq, Repr

/-- One outline entry. -/
structure OutlineEntry where
  level : String
  text : String
  page : Int
  deriving DecidableEq, Repr

/-- One record of the lists output. -/
structure ListRec where
  page : Nat
  items : List String
  deriving DecidableEq, Repr

/-- Accumulator of the assembler: content sections, outline, lists. -/
abbrev AsmAcc := List ContentSection × List OutlineEntry × List ListRec

/-- The list branch of the assembler: one list record and one list-item
content section per bullet-matching line; non-matching lines are dropped. -/
def listFold (ls : List (List Char)) (page : Nat) (bbox : BBox) (acc : AsmAcc) : AsmAcc :=
  ls.foldl
    (fun a l =>
      match bulletMatchL l with
      | some g =>
        (a.1 ++ [⟨"list_item", String.mk (pyStripL g), page, bbox, 0⟩],
         a.2.1,
         a.2.2 ++ [⟨page, [String.mk (pyStripL g)]⟩])
      | none => a)
    acc

/-- `level = len(level_map) - sorted_heading_sizes.index(size)`. -/
def headingLevel (sizes : List Int) (sz : Int) : Int :=
  ((level_map sizes).length : Int) - (listIndex sz sizes : Int)

/-- Process one block of the assembler loop. -/
def assembleBlock (hs : List StyleKey) (sizes : List Int) (acc : AsmAcc)
    (b : ScannedBlock) : AsmAcc :=
  if (pyStripL b.text.data).all (fun c => c = '.') then acc
  else
    let ls := splitLines b.text.data
    if ls.any (fun l => (bulletMatchL l).isSome) then listFold ls b.page b.bbox acc
    else if decide (b.style ∈ hs) then
      let lvl : Int := headingLevel sizes b.style.1
      (acc.1 ++ [⟨"heading", b.text, b.page, b.bbox, lvl⟩],
       acc.2.1 ++ [⟨"H" ++ toString lvl, b.text, (b.page : Int)⟩],
       acc.2.2)
    else
      (acc.1 ++ [⟨classify_content_block b.text, b.text, b.page, b.bbox, 0⟩],
       acc.2.1, acc.2.2)

/-- `extract_content_and_outline`: returns
`(content_sections, outline, full_text.strip(), lists)`; `none` models the
index error a malformed block raises (caught at the document boundary). -/
def extract_content_and_outline (d : Doc) :
    Option (List ContentSection × List OutlineEntry × String × List ListRec) :=
  match scanDoc d with
  | none => none
  | some (st, blocks, ft) =>
    match st with
    | [] => some ([], [], pyStrip ft, [])
    | e :: es =>
      let body := (pickMax e es).1
      let hs := heading_styles (e :: es) body
      let sizes := sorted_heading_sizes hs
      let asm := blocks.foldl (assembleBlock hs sizes) ([], [], [])
      let outl :=
        if d.toc.isEmpty then asm.2.1
        else d.toc.map (fun t => (⟨"H" ++ toString t.1, t.2.1, t.2.2⟩ : OutlineEntry))
      some (asm.1, outl, pyStrip ft, asm.2.2)

/- ## Static form-field matcher

The source pattern, compiled with `IGNORECASE | MULTILINE`:
`^(?!(?:table of contents|appendix)\b)\s*(\p{N}+[\.\)])\s+(.+)$` run with
`finditer` over the full document text.  `^` restricts match starts to line
starts; `.` never matches a newline, so group 2 ends at the line end where
`$` matches; `\s*` and `\s+` may greedily cross newlines. -/

/-- `\p{N}` (Unicode category N), on the modelled fragment: ASCII decimal
digits plus the Roman-numeral block U+2160..U+2182 (category Nl, matched by
`\p{N}` but stripped by `re.sub(r'\D', ...)`). -/
def isNum (c : Char) : Bool :=
  c.isDigit || (0x2160 ≤ c.toNat && c.toNat ≤ 0x2182)

/-- `\w` (ASCII fragment). -/
def wordCharB (c : Char) : Bool :=
  c.isAlpha || c.isDigit || c = '_'

/-- Case-insensitive literal match (pattern given lowercase), returning the
remainder. -/
def ciPrefixDrop : List Char → List Char → Option (List Char)
  | [], cs => some cs
  | _ :: _, [] => none
  | p :: ps, c :: cs => if c.toLower = p then ciPrefixDrop ps cs else none

/-- The negative lookahead `(?!(?:table of contents|appendix)\b)` fires
(blocks the match) at this position. -/
def lookaheadBlocks (cs : List Char) : Bool :=
  (match ciPrefixDrop "table of contents".data cs with
   | some [] => true
   | some (d :: _) => !wordCharB d
   | none => false) ||
  (match ciPrefixDrop "appendix".data cs with
   | some [] => true
   | some (d :: _) => !wordCharB d
   | none => false)

/-- Backtracking of `\s+` when `(.+)` finds no character after the greedy
whitespace run `w` (only reachable when the text ends in whitespace): the
largest `k` with `1 ≤ k < w.length` whose next character is not a newline. -/
def backtrackWs (w : List Char) : Option Nat :=
  (List.range w.length).reverse.find? (fun k => decide (1 ≤ k) && w.getD k '\n' != '\n')

/-- Attempt the field pattern at one position (which `^` constrains to a line
start).  Returns `(group 1, group 2, remainder after the match)`. -/
def matchAt (cs : List Char) : Option (List Char × List Char × List Char) :=
  if lookaheadBlocks cs then none
  else
    let r1 := cs.dropWhile isPySpace
    let digits := r1.takeWhile isNum
    if digits.isEmpty then none
    else
      match r1.drop digits.length with
      | [] => none
      | p :: r3 =>
        if p = '.' || p = ')' then
          let w := r3.takeWhile isPySpace
          if w.isEmpty then none
          else
            match r3.drop w.length with
            | [] =>
              match backtrackWs w with
              | none => none
              | some k =>
                let tail := w.drop k
                let g2 := tail.takeWhile (fun e => !(e = '\n'))
                some (digits ++ [p], g2, tail.drop g2.length)
            | t1 :: ts =>
              let g2 := (t1 :: ts).takeWhile (fun e => !(e = '\n'))
              some (digits ++ [p], g2, (t1 :: ts).drop g2.length)
        else none

/-- `finditer`: scan left to right, matching only at line starts, resuming
after each match.  Fuel decreases once per consumed character or match, so
`length + 1` fuel is never exhausted. -/
def findMatchesAux : Nat → List Char → Bool → List (List Char × List Char)
  | 0, _, _ => []
  | _ + 1, [], _ => []
  | fuel + 1, c :: rest, atStart =>
    if atStart then
      match matchAt (c :: rest) with
      | some (g1, g2, after) => (g1, g2) :: findMatchesAux fuel after false
      | none => findMatchesAux fuel rest (c = '\n')
    else findMatchesAux fuel rest (c = '\n')

/-- All `(group 1, group 2)` candidate pairs of the field pattern. -/
def findMatches (s : String) : List (List Char × List Char) :=
  findMatchesAux (s.data.length + 1) s.data true

/-- One variant of the output records. -/
structure StaticFormField where
  field_number : Int
  label : String
  type : String
  required : Bool
  deriving DecidableEq, Repr

/-- `int(digit-string)` for a non-empty all-digit string. -/
def intOfDigits (ds : List Char) : Int :=
  ds.foldl (fun a c => a * 10 + ((c.toNat : Int) - 48)) 0

/-- The loop body of `extract_static_form_fields`: the label is
`group(2).strip().replace('\n', ' ')`; the numeral is `re.sub(r'\D','',g1)`
converted by `int`, and a failing conversion drops the candidate. -/
def toField (m : List Char × List Char) : Option StaticFormField :=
  let label := String.mk ((pyStripL m.2).map (fun c => if c = '\n' then ' ' else c))
  let ds := m.1.filter isNd
  if ds.isEmpty then none
  else some ⟨intOfDigits ds, label, "text_input", true⟩

/-- `extract_static_form_fields` over the full document text. -/
def extract_static_form_fields (full_text : String) : List StaticFormField :=
  (findMatches full_text).filterMap toField

/- ## Table extraction and cleaning

The collaborator is modelled by its outcome: `Except.error` for a raised
exception at `pdfplumber.open`, and per-page `Except` for
`page.extract_tables()`.  `tables = []` is initialised before the `try`, so
an exception preserves the tables accumulated so far. -/

/-- A raw table grid from the collaborator: rows of optional cells. -/
abbrev RawTable := List (List (Option String))

/-- One cleaned table of the output. -/
structure Table where
  page : Nat
  data : List (List String)
  deriving DecidableEq, Repr

/-- Clean one raw table on 0-based page `i`: reject degenerate 1x1-or-smaller
grids, stringify and strip cells, drop fully empty rows, pad to the maximal
row width, drop fully empty columns. -/
def processRaw (i : Nat) (t : RawTable) : Option Table :=
  if t.length ≤ 1 && t.all (fun r => r.length ≤ 1) then none
  else
    let cleaned := t.map (fun r => r.map (fun cell =>
      match cell with
      | none => ""
      | some s => pyStrip s))
    let nonEmptyRows := cleaned.filter (fun r => r.any (fun s => !(s = "")))
    if nonEmptyRows.isEmpty then none
    else
      let maxCols := (nonEmptyRows.map List.length).foldl max 0
      let padded := nonEmptyRows.map (fun r => r ++ List.replicate (maxCols - r.length) "")
      let colIdx := (List.range maxCols).filter
        (fun j => padded.any (fun r => !(r.getD j "" = "")))
      let finalTable := padded.map
        (fun r => ((r.enum.filter (fun pr => colIdx.contains pr.1)).map Prod.snd))
      if finalTable.isEmpty then none else some ⟨i + 1, finalTable⟩

/-- The page loop: stop at the first page whose `extract_tables()` raises,
keeping what was accumulated. -/
def tablesFromPages : Nat → List (Except Unit (List RawTable)) → List Table → List Table
  | _, [], acc => acc
  | i, p :: ps, acc =>
    match p with
    | Except.error _ => acc
    | Except.ok raws => tablesFromPages (i + 1) ps (acc ++ raws.filterMap (processRaw i))

/-- `extract_tables_with_pdfplumber` on the collaborator outcome. -/
def extract_tables_with_pdfplumber
    (opened : Except Unit (List (Except Unit (List RawTable)))) : List Table :=
  match opened with
  | Except.error _ => []
  | Except.ok pages => tablesFromPages 0 pages []

/- ## Interactive form fields -/

/-- One interactive form field of the output. -/
structure FormField where
  name : String
  type : String
  value : String
  page : Nat
  deriving DecidableEq, Repr

/-- `extract_form_fields`: every widget of every page, tagged with the
1-based page number. -/
def extract_form_fields (d : Doc) : List FormField :=
  (d.pages.enum.map (fun pi =>
    pi.2.widgets.map (fun w =>
      (⟨w.field_name, w.field_type_string, w.field_value, pi.1 + 1⟩ : FormField)))).flatten

/- ## Title resolution -/

/-- `pathlib.Path(s).stem` on POSIX path shapes occurring in titles: the last
path component (empty and `.` components dropped), without its suffix; the
suffix is `name[i:]` for the last dot index `i` when `0 < i < len - 1`. -/
def pathStem (s : String) : String :=
  let comps := (splitSlash s.data).filter (fun c => !c.isEmpty && !(c = ['.']))
  let name := comps.getLastD []
  match (List.range name.length).reverse.find? (fun i => name.getD i ' ' == '.') with
  | some i =>
    if 0 < i && i < name.length - 1 then String.mk (name.take i) else String.mk name
  | none => String.mk name

/-- `get_document_title`: metadata title, stripped, the "Microsoft Word -"
marker removed (all occurrences) and re-stripped, reduced to its path stem;
`""` when the metadata title is absent or empty. -/
def get_document_title (mt : Option String) : String :=
  match mt with
  | none => ""
  | some t0 =>
    if t0 = "" then ""
    else
      let t1 := pyStrip t0
      let t2 :=
        if containsSub t1 "Microsoft Word -" then pyStrip (pyReplace t1 "Microsoft Word -" "")
        else t1
      pathStem t2

/-- Strict comparison of outline entries under the key `(level, page)`. -/
def outlineKeyLT (a b : OutlineEntry) : Bool :=
  decide (a.level < b.level) || (decide (a.level = b.level) && decide (a.page < b.page))

/-- Stable insertion for `sorted(outline, key=lambda x: (x['level'], x['page']))`. -/
def insertOutline (x : OutlineEntry) : List OutlineEntry → List OutlineEntry
  | [] => [x]
  | y :: ys => if outlineKeyLT x y then x :: y :: ys else y :: insertOutline x ys

/-- Python `sorted` (stable) on outline entries. -/
def sortOutline (l : List OutlineEntry) : List OutlineEntry :=
  l.foldl (fun acc x => insertOutline x acc) []

/-- Title resolution of `process_single_pdf`: metadata title, else the text of
the first outline entry under the `(level, page)` sort, else the file stem. -/
def resolve_title (mt : Option String) (outl : List OutlineEntry) (stem : String) : String :=
  let title := get_document_title mt
  let title :=
    if title = "" && !outl.isEmpty then
      match (sortOutline outl).head? with
      | some e => e.text
      | none => ""
    else title
  if title = "" then stem else title

/- ## Per-document processing -/

/-- The JSON object written for one document (the returned `lists` sequence is
not part of the output). -/
structure Output where
  title : String
  outline : List OutlineEntry
  content_sections : List ContentSection
  full_text : String
  tables : List Table
  form_fields : List FormField
  static_form_fields : List StaticFormField
  deriving DecidableEq, Repr

/-- `process_single_pdf` on an already-opened document and the table
collaborator's outcome; `none` models the per-document exception (no output
file is written). -/
def process_single_pdf (d : Doc)
    (opened : Except Unit (List (Except Unit (List RawTable)))) (stem : String) :
    Option Output :=
  match extract_content_and_outline d with
  | none => none
  | some (secs, outl, ft, _lists) =>
    some
      { title := resolve_title d.metaTitle outl stem
        outline := outl
        content_sections := secs
        full_text := ft
        tables := extract_tables_with_pdfplumber opened
        form_fields := extract_form_fields d
        static_form_fields := extract_static_form_fields ft }

/- ## Helper lemmas -/

theorem mem_dropWhile_of_mem {p : Char → Bool} {c : Char} (hc : p c = false) :
    ∀ {l : List Char}, c ∈ l → c ∈ l.dropWhile p := by
  intro l h
  induction l with
  | nil => cases h
  | cons x xs ih =>
    rw [List.dropWhile_cons]
    by_cases hx : p x = true
    · simp only [hx, if_true]
      rcases List.mem_cons.mp h with rfl | hmem
      · rw [hc] at hx; cases hx
      · exact ih hmem
    · simp only [hx, if_false]
      exact h

theorem mem_pyStripL {c : Char} (hc : isPySpace c = false) {cs : List Char}
    (h : c ∈ cs) : c ∈ pyStripL cs := by
  unfold pyStripL
  exact List.mem_reverse.mpr
    (mem_dropWhile_of_mem hc (List.mem_reverse.mpr (mem_dropWhile_of_mem hc h)))

theorem splitLines_ne_nil : ∀ cs : List Char, splitLines cs ≠ []
  | [] => by simp [splitLines]
  | c :: rest => by
    rw [splitLines]
    by_cases h : c = '\n'
    · simp [h]
    · simp only [if_neg h]
      cases hs : splitLines rest with
      | nil => simp
      | cons l ls => simp

theorem mem_of_mem_splitLines :
    ∀ {cs : List Char} {l : List Char} {c : Char}, l ∈ splitLines cs → c ∈ l → c ∈ cs := by
  intro cs
  induction cs with
  | nil =>
    intro l c hl hc
    rw [splitLines] at hl
    rcases List.mem_singleton.mp hl with rfl
    cases hc
  | cons x rest ih =>
    intro l c hl hc
    rw [splitLines] at hl
    by_cases hx : x = '\n'
    · rw [if_pos hx] at hl
      rcases List.mem_cons.mp hl with rfl | hmem
      · cases hc
      · exact List.mem_cons_of_mem _ (ih hmem hc)
    · rw [if_neg hx] at hl
      cases hs : splitLines rest with
      | nil => exact absurd hs (splitLines_ne_nil rest)
      | cons l0 ls =>
        rw [hs] at hl
        rcases List.mem_cons.mp hl with rfl | hmem
        · rcases List.mem_cons.mp hc with rfl | hc0
          · exact List.mem_cons_self _ _
          · exact List.mem_cons_of_mem _ (ih (hs ▸ List.mem_cons_self l0 ls) hc0)
        · exact List.mem_cons_of_mem _ (ih (hs ▸ List.mem_cons_of_mem _ hmem) hc)

theorem addCount_keyPred (P : StyleKey → Prop) :
    ∀ (st : Hist) (k : StyleKey) (w : Nat), (∀ e ∈ st, P e.1) → P k →
      ∀ e ∈ addCount st k w, P e.1 := by
  intro st
  induction st with
  | nil =>
    intro k w _ hk e he
    rw [addCount] at he
    rcases List.mem_singleton.mp he with rfl
    exact hk
  | cons x xs ih =>
    intro k w hall hk e he
    rw [addCount] at he
    by_cases hx : x.1 = k
    · rw [if_pos hx] at he
      rcases List.mem_cons.mp he with rfl | hmem
      · exact hall x (List.mem_cons_self _ _)
      · exact hall e (List.mem_cons_of_mem _ hmem)
    · rw [if_neg hx] at he
      rcases List.mem_cons.mp he with rfl | hmem
      · exact hall x (List.mem_cons_self _ _)
      · exact ih k w (fun e' he' => hall e' (List.mem_cons_of_mem _ he')) hk e hmem

theorem scanBlocksAux_emph_le :
    ∀ (pn : Nat) (bs : List Block) (st : Hist) (bl : List ScannedBlock)
      (st' : Hist) (bl' : List ScannedBlock),
      scanBlocksAux pn bs st bl = some (st', bl') →
      (∀ e ∈ st, e.1.2 ≤ 1) → ∀ e ∈ st', e.1.2 ≤ 1 := by
  intro pn bs
  induction bs generalizing pn with
  | nil =>
    intro st bl st' bl' h hall
    rw [scanBlocksAux] at h
    injection h with h'
    injection h' with h1 h2
    exact h1 ▸ hall
  | cons b bs ih =>
    intro st bl st' bl' h hall
    rw [scanBlocksAux] at h
    by_cases hb : b.btype = 0
    · rw [if_pos hb] at h
      by_cases ht : blockText b = ""
      · rw [if_pos ht] at h
        exact ih pn st bl st' bl' h hall
      · rw [if_neg ht] at h
        cases hsp : firstSpan b with
        | none => rw [hsp] at h; cases h
        | some sp =>
          rw [hsp] at h
          refine ih pn _ _ st' bl' h ?_
          exact addCount_keyPred (fun k => k.2 ≤ 1) st (sp.size, sp.flags % 2)
            (blockText b).length hall (Nat.le_of_lt_succ (Nat.mod_lt _ (by norm_num)))
    · rw [if_neg hb] at h
      exact ih pn st bl st' bl' h hall

theorem scanPagesAux_emph_le :
    ∀ (ps : List Page) (pn : Nat) (st0 : Hist) (bl0 : List ScannedBlock) (ft0 : String)
      (st : Hist) (bl : List ScannedBlock) (ft : String),
      scanPagesAux pn ps st0 bl0 ft0 = some (st, bl, ft) →
      (∀ e ∈ st0, e.1.2 ≤ 1) → ∀ e ∈ st, e.1.2 ≤ 1 := by
  intro ps
  induction ps with
  | nil =>
    intro pn st0 bl0 ft0 st bl ft h hall
    rw [scanPagesAux] at h
    injection h with h'
    injection h' with h1 h2
    exact h1 ▸ hall
  | cons p ps ih =>
    intro pn st0 bl0 ft0 st bl ft h hall
    rw [scanPagesAux] at h
    cases hb : scanBlocksAux (pn + 1) p.blocks st0 bl0 with
    | none => rw [hb] at h; cases h
    | some r =>
      rw [hb] at h
      exact ih (pn + 1) r.1 r.2 _ st bl ft h
        (scanBlocksAux_emph_le (pn + 1) p.blocks st0 bl0 r.1 r.2 (by rw [hb]) hall)

theorem scanDoc_emph_le {d : Doc} {st : Hist} {bl : List ScannedBlock} {ft : String}
    (h : scanDoc d = some (st, bl, ft)) : ∀ e ∈ st, e.1.2 ≤ 1 :=
  scanPagesAux_emph_le d.pages 0 [] [] "" st bl ft h (by intro e he; cases he)

theorem foldl_pickEntry_mem : ∀ (es : Hist) (b : StyleKey × Nat),
    es.foldl pickEntry b ∈ b :: es := by
  intro es
  induction es with
  | nil => intro b; simp
  | cons x es ih =>
    intro b
    rw [List.foldl_cons]
    rcases List.mem_cons.mp (ih (pickEntry b x)) with h | h
    · rw [h]
      unfold pickEntry
      by_cases hx : x.2 > b.2
      · rw [if_pos hx]; exact List.mem_cons_of_mem _ (List.mem_cons_self _ _)
      · rw [if_neg hx]; exact List.mem_cons_self _ _
    · exact List.mem_cons_of_mem _ (List.mem_cons_of_mem _ h)

theorem most_common1_mem {st : Hist} {e : StyleKey × Nat}
    (h : most_common1 st = some e) : e ∈ st := by
  cases st with
  | nil => cases h
  | cons x es =>
    rw [most_common1] at h
    injection h with h'
    exact h' ▸ foldl_pickEntry_mem es x

theorem foldl_pickEntry_spec : ∀ (es : Hist) (b : StyleKey × Nat),
    (∀ x ∈ es, x.2 ≤ (es.foldl pickEntry b).2) ∧ b.2 ≤ (es.foldl pickEntry b).2 ∧
    (es.foldl pickEntry b = b ∨
      ∃ i : Nat, es[i]? = some (es.foldl pickEntry b) ∧ b.2 < (es.foldl pickEntry b).2 ∧
        ∀ (j : Nat) (y : StyleKey × Nat), j < i → es[j]? = some y →
          y.2 < (es.foldl pickEntry b).2) := by
  intro es
  induction es with
  | nil =>
    intro b
    refine ⟨(by intro x hx; cases hx), Nat.le_refl _, Or.inl rfl⟩
  | cons x es ih =>
    intro b
    rw [List.foldl_cons]
    by_cases hx : x.2 > b.2
    · have hpick : pickEntry b x = x := by rw [pickEntry, if_pos hx]
      rw [hpick]
      obtain ⟨ih1, ih2, ih3⟩ := ih x
      refine ⟨?_, ?_, ?_⟩
      · intro y hy
        rcases List.mem_cons.mp hy with rfl | hmem
        · exact ih2
        · exact ih1 y hmem
      · exact Nat.le_of_lt (Nat.lt_of_lt_of_le hx ih2)
      · rcases ih3 with heq | ⟨i, hi, hlt, hjs⟩
        · refine Or.inr ⟨0, ?_, ?_, ?_⟩
          · simp [heq]
          · rw [heq]; exact hx
          · intro j y hj _; omega
        · refine Or.inr ⟨i + 1, by simpa using hi, Nat.lt_of_lt_of_le hx ih2, ?_⟩
          intro j y hj hy
          cases j with
          | zero =>
            simp at hy
            rw [← hy]
            exact hlt
          | succ j' =>
            simp only [List.getElem?_cons_succ] at hy
            exact hjs j' y (by omega) hy
    · have hpick : pickEntry b x = b := by rw [pickEntry, if_neg hx]
      rw [hpick]
      obtain ⟨ih1, ih2, ih3⟩ := ih b
      refine ⟨?_, ih2, ?_⟩
      · intro y hy
        rcases List.mem_cons.mp hy with rfl | hmem
        · exact Nat.le_trans (Nat.le_of_not_lt hx) ih2
        · exact ih1 y hmem
      · rcases ih3 with heq | ⟨i, hi, hlt, hjs⟩
        · exact Or.inl heq
        · refine Or.inr ⟨i + 1, by simpa using hi, hlt, ?_⟩
          intro j y hj hy
          cases j with
          | zero =>
            simp at hy
            rw [← hy]
            exact Nat.lt_of_le_of_lt (Nat.le_of_not_lt hx) hlt
          | succ j' =>
            simp only [List.getElem?_cons_succ] at hy
            exact hjs j' y (by omega) hy

theorem mem_insertDesc {x a : Int} : ∀ {l : List Int}, a ∈ insertDesc x l ↔ a = x ∨ a ∈ l := by
  intro l
  induction l with
  | nil => simp [insertDesc]
  | cons y ys ih =>
    rw [insertDesc]
    by_cases h1 : x > y
    · rw [if_pos h1]; simp
    · rw [if_neg h1]
      by_cases h2 : x = y
      · rw [if_pos h2]
        subst h2
        simp only [List.mem_cons]
        constructor
        · intro h; exact Or.inr h
        · rintro (rfl | h)
          · exact Or.inl rfl
          · exact h
      · rw [if_neg h2]
        simp only [List.mem_cons, ih]
        tauto

theorem pairwise_insertDesc {x : Int} :
    ∀ {l : List Int}, l.Pairwise (fun a b => a > b) →
      (insertDesc x l).Pairwise (fun a b => a > b) := by
  intro l
  induction l with
  | nil => intro _; simp [insertDesc]
  | cons y ys ih =>
    intro hp
    rw [List.pairwise_cons] at hp
    obtain ⟨hy, hys⟩ := hp
    rw [insertDesc]
    by_cases h1 : x > y
    · rw [if_pos h1]
      rw [List.pairwise_cons]
      refine ⟨?_, List.pairwise_cons.mpr ⟨hy, hys⟩⟩
      intro z hz
      rcases List.mem_cons.mp hz with rfl | hmem
      · exact h1
      · exact lt_trans (hy z hmem) h1
    · rw [if_neg h1]
      by_cases h2 : x = y
      · rw [if_pos h2]
        exact List.pairwise_cons.mpr ⟨hy, hys⟩
      · rw [if_neg h2]
        rw [List.pairwise_cons]
        refine ⟨?_, ih hys⟩
        intro z hz
        rcases mem_insertDesc.mp hz with rfl | hmem
        · omega
        · exact hy z hmem

theorem foldl_insertDesc_mem : ∀ (l acc : List Int) (a : Int),
    a ∈ l.foldl (fun acc x => insertDesc x acc) acc ↔ a ∈ acc ∨ a ∈ l := by
  intro l
  induction l with
  | nil => intro acc a; simp
  | cons x xs ih =>
    intro acc a
    rw [List.foldl_cons, ih, mem_insertDesc]
    simp only [List.mem_cons]
    tauto

theorem foldl_insertDesc_pairwise : ∀ (l acc : List Int),
    acc.Pairwise (fun a b => a > b) →
    (l.foldl (fun acc x => insertDesc x acc) acc).Pairwise (fun a b => a > b) := by
  intro l
  induction l with
  | nil => intro acc h; exact h
  | cons x xs ih =>
    intro acc h
    rw [List.foldl_cons]
    exact ih _ (pairwise_insertDesc h)

theorem sorted_heading_sizes_mem (hs : List StyleKey) (a : Int) :
    a ∈ sorted_heading_sizes hs ↔ a ∈ hs.map Prod.fst := by
  rw [sorted_heading_sizes, foldl_insertDesc_mem]
  simp

theorem sorted_heading_sizes_pairwise (hs : List StyleKey) :
    (sorted_heading_sizes hs).Pairwise (fun a b => a > b) :=
  foldl_insertDesc_pairwise _ [] (List.Pairwise.nil)

theorem listIndex_lt_length {x : Int} : ∀ {l : List Int}, x ∈ l → listIndex x l < l.length := by
  intro l
  induction l with
  | nil => intro h; cases h
  | cons y ys ih =>
    intro h
    rw [listIndex]
    by_cases hy : y = x
    · rw [if_pos hy]; simp
    · rw [if_neg hy]
      rcases List.mem_cons.mp h with rfl | hmem
      · exact absurd rfl hy
      · simpa using ih hmem

theorem mem_of_getLast?_eq {α : Type} : ∀ {l : List α} {a : α}, l.getLast? = some a → a ∈ l := by
  intro l
  induction l with
  | nil => intro a h; cases h
  | cons x xs ih =>
    intro a h
    cases xs with
    | nil =>
      simp [List.getLast?] at h
      simp [h]
    | cons y ys =>
      rw [List.getLast?_cons_cons] at h
      exact List.mem_cons_of_mem _ (ih h)

theorem listIndex_getLast {a : Int} :
    ∀ {l : List Int}, l.Pairwise (fun a b => a > b) → l.getLast? = some a →
      listIndex a l = l.length - 1 := by
  intro l
  induction l with
  | nil => intro _ h; cases h
  | cons y ys ih =>
    intro hp h
    cases ys with
    | nil =>
      simp [List.getLast?] at h
      simp [listIndex, h]
    | cons z zs =>
      rw [List.getLast?_cons_cons] at h
      rw [List.pairwise_cons] at hp
      obtain ⟨hy, hzs⟩ := hp
      have hmem : a ∈ z :: zs := mem_of_getLast?_eq h
      have hne : y ≠ a := ne_of_gt (hy a hmem)
      rw [listIndex, if_neg hne, ih hzs h]
      simp only [List.length_cons]
      omega

theorem levelMapAux_length : ∀ (l : List Int) (k : Nat), (levelMapAux k l).length = l.length := by
  intro l
  induction l with
  | nil => intro k; rfl
  | cons s ss ih => intro k; simp [levelMapAux, ih]

theorem level_map_length (sizes : List Int) : (level_map sizes).length = sizes.length :=
  levelMapAux_length sizes 0

theorem levelMapAux_getElem? :
    ∀ (l : List Int) (k i : Nat),
      (levelMapAux k l)[i]? = (l[i]?).map (fun s => (s, "H" ++ toString (k + i + 1))) := by
  intro l
  induction l with
  | nil => intro k i; simp [levelMapAux]
  | cons s ss ih =>
    intro k i
    cases i with
    | zero => simp [levelMapAux]
    | succ i' =>
      simp only [levelMapAux, List.getElem?_cons_succ, ih (k + 1) i']
      have harith : k + 1 + i' + 1 = k + (i' + 1) + 1 := by omega
      rw [harith]

theorem levelMapAux_map_fst : ∀ (l : List Int) (k : Nat),
    (levelMapAux k l).map Prod.fst = l := by
  intro l
  induction l with
  | nil => intro k; rfl
  | cons s ss ih => intro k; simp [levelMapAux, ih]

theorem listFold_eq : ∀ (ls : List (List Char)) (page : Nat) (bbox : BBox) (acc : AsmAcc),
    listFold ls page bbox acc =
      (acc.1 ++ ls.filterMap (fun l => (bulletMatchL l).map
          (fun g => (⟨"list_item", String.mk (pyStripL g), page, bbox, 0⟩ : ContentSection))),
       acc.2.1,
       acc.2.2 ++ ls.filterMap (fun l => (bulletMatchL l).map
          (fun g => (⟨page, [String.mk (pyStripL g)]⟩ : ListRec)))) := by
  intro ls
  induction ls with
  | nil =>
    intro page bbox acc
    simp [listFold]
  | cons l ls ih =>
    intro page bbox acc
    rw [listFold, List.foldl_cons]
    cases hb : bulletMatchL l with
    | none =>
      simp only [hb]
      rw [← listFold, ih]
      simp [List.filterMap_cons, hb]
    | some g =>
      simp only [hb]
      rw [← listFold, ih]
      simp [List.filterMap_cons, hb]

theorem tablesFromPages_append_error :
    ∀ (okPages : List (List RawTable)) (post : List (Except Unit (List RawTable)))
      (i : Nat) (acc : List Table),
      tablesFromPages i (okPages.map Except.ok ++ Except.error () :: post) acc =
        tablesFromPages i (okPages.map Except.ok) acc := by
  intro okPages
  induction okPages with
  | nil => intro post i acc; simp [tablesFromPages]
  | cons p ps ih =>
    intro post i acc
    simp only [List.map_cons, List.cons_append, tablesFromPages]
    exact ih post (i + 1) _

theorem insertOutline_length (x : OutlineEntry) :
    ∀ l : List OutlineEntry, (insertOutline x l).length = l.length + 1 := by
  intro l
  induction l with
  | nil => rfl
  | cons y ys ih =>
    rw [insertOutline]
    by_cases h : outlineKeyLT x y = true
    · rw [if_pos h]; rfl
    · rw [if_neg h]; simp [ih]

theorem sortOutline_length_aux :
    ∀ (l acc : List OutlineEntry),
      (l.foldl (fun acc x => insertOutline x acc) acc).length = acc.length + l.length := by
  intro l
  induction l with
  | nil => intro acc; rfl
  | cons x xs ih =>
    intro acc
    rw [List.foldl_cons, ih, insertOutline_length]
    simp only [List.length_cons]
    omega

theorem sortOutline_length (l : List OutlineEntry) : (sortOutline l).length = l.length := by
  rw [sortOutline, sortOutline_length_aux]
  simp

/- ## Concrete documents used to instantiate the theorems -/

/-- A bounding box used by the concrete documents. -/
def bbW : BBox := ⟨0, 0, 10, 10⟩

/-- A two-block document: one larger-font heading, one dominant body block. -/
def docC1 : Doc :=
  { metaTitle := none
    toc := []
    pages := [{ text := "Heading\nbody body body"
                widgets := []
                blocks := [
                  { btype := 0, bbox := bbW, lines := [⟨[⟨"Heading", 16, 0⟩]⟩] },
                  { btype := 0, bbox := bbW, lines := [⟨[⟨"body body body", 10, 0⟩]⟩] }] }] }

/-- The histogram `scanDoc` produces for `docC1`. -/
def histC1 : Hist := [((16, 0), 7), ((10, 0), 14)]

/-- The scanned blocks of `docC1`. -/
def blocksC1 : List ScannedBlock :=
  [⟨(16, 0), "Heading", 1, bbW⟩, ⟨(10, 0), "body body body", 1, bbW⟩]

/- ## Claim theorems -/

/-- C1: for every document whose style histogram is non-empty, a style key of
the histogram is a heading style iff its font size strictly exceeds the body
style's, or the sizes are equal and its emphasis flag is truthy (non-zero)
while the body style's is zero; the body style is never a heading style, and
every heading style's font size is at least the body style's. -/
theorem C1_heading_style_iff (d : Doc) (st : Hist) (bl : List ScannedBlock) (ft : String)
    (body : StyleKey × Nat)
    (hscan : scanDoc d = some (st, bl, ft)) (hbody : most_common1 st = some body) :
    (∀ s ∈ st.map Prod.fst,
      (s ∈ heading_styles st body.1 ↔
        (body.1.1 < s.1 ∨ (s.1 = body.1.1 ∧ s.2 ≠ 0 ∧ body.1.2 = 0))))
    ∧ body.1 ∉ heading_styles st body.1
    ∧ ∀ s ∈ heading_styles st body.1, body.1.1 ≤ s.1 := by
  have hemph : ∀ e ∈ st, e.1.2 ≤ 1 := scanDoc_emph_le hscan
  have hbodymem : body ∈ st := most_common1_mem hbody
  have hb2 : body.1.2 ≤ 1 := hemph body hbodymem
  refine ⟨?_, ?_, ?_⟩
  · intro s hs
    obtain ⟨e, he, hes⟩ := List.mem_map.mp hs
    have hs2 : s.2 ≤ 1 := hes ▸ hemph e he
    rw [heading_styles, List.mem_filter]
    simp only [Bool.or_eq_true, Bool.and_eq_true, decide_eq_true_eq]
    constructor
    · rintro ⟨-, h | ⟨h1, h2⟩⟩
      · exact Or.inl h
      · exact Or.inr ⟨h1, by omega⟩
    · rintro (h | ⟨h1, h2, h3⟩)
      · exact ⟨hs, Or.inl h⟩
      · exact ⟨hs, Or.inr ⟨h1, by omega⟩⟩
  · intro hmem
    rw [heading_styles, List.mem_filter] at hmem
    simp only [Bool.or_eq_true, Bool.and_eq_true, decide_eq_true_eq] at hmem
    rcases hmem.2 with h | ⟨-, h2⟩
    · exact absurd h (lt_irrefl _)
    · exact absurd h2 (lt_irrefl _)
  · intro s hsh
    rw [heading_styles, List.mem_filter] at hsh
    simp only [Bool.or_eq_true, Bool.and_eq_true, decide_eq_true_eq] at hsh
    rcases hsh.2 with h | ⟨h1, -⟩
    · exact le_of_lt h
    · exact le_of_eq h1.symm

/-- Witness for C1 at `docC1`: the larger style is a heading style, the body
style is not. -/
theorem C1_heading_style_iff_witness :
    ((16, 0) : StyleKey) ∈ heading_styles histC1 (10, 0) ∧
    ((10, 0) : StyleKey) ∉ heading_styles histC1 (10, 0) ∧
    ∀ s ∈ heading_styles histC1 (10, 0), (10 : Int) ≤ s.1 := by
  have h := C1_heading_style_iff docC1 histC1 blocksC1 "Heading\nbody body body\n"
    ((10, 0), 14) (by decide) (by decide)
  exact ⟨(h.1 (16, 0) (by decide)).mpr (by decide), h.2.1, h.2.2⟩

/-- A document with two styles of equal accumulated weight; the first
encountered must win the body-style selection. -/
def docC10 : Doc :=
  { metaTitle := none
    toc := []
    pages := [{ text := ""
                widgets := []
                blocks := [
                  { btype := 0, bbox := bbW, lines := [⟨[⟨"abcde", 12, 0⟩]⟩] },
                  { btype := 0, bbox := bbW, lines := [⟨[⟨"fghij", 11, 0⟩]⟩] }] }] }

/-- The histogram `scanDoc` produces for `docC10` (a tie at weight 5). -/
def histC10 : Hist := [((12, 0), 5), ((11, 0), 5)]

/-- The scanned blocks of `docC10`. -/
def blocksC10 : List ScannedBlock :=
  [⟨(12, 0), "abcde", 1, bbW⟩, ⟨(11, 0), "fghij", 1, bbW⟩]

/-- C10: the body-style entry selected by `most_common1` from the scanned
histogram is an entry of the histogram with maximal accumulated weight, and
every histogram entry inserted before it has strictly smaller weight — so
among tied maxima the first-inserted (first-encountered in scan order) style
wins, deterministically. -/
theorem C10_body_style_first_max (d : Doc) (st : Hist) (bl : List ScannedBlock)
    (ft : String) (e : StyleKey × Nat)
    (hscan : scanDoc d = some (st, bl, ft)) (hbody : most_common1 st = some e) :
    e ∈ st ∧ (∀ x ∈ st, x.2 ≤ e.2) ∧
    ∃ i : Nat, st[i]? = some e ∧
      ∀ (j : Nat) (y : StyleKey × Nat), j < i → st[j]? = some y → y.2 < e.2 := by
  cases st with
  | nil => cases hbody
  | cons x es =>
    rw [most_common1] at hbody
    injection hbody with hb
    rw [pickMax] at hb
    obtain ⟨h1, h2, h3⟩ := foldl_pickEntry_spec es x
    rw [hb] at h1 h2 h3
    refine ⟨?_, ?_, ?_⟩
    · have hm := foldl_pickEntry_mem es x
      rw [hb] at hm
      exact hm
    · intro y hy
      rcases List.mem_cons.mp hy with rfl | hmem
      · exact h2
      · exact h1 y hmem
    · rcases h3 with heq | ⟨i, hi, hlt, hjs⟩
      · refine ⟨0, by simp [heq], ?_⟩
        intro j y hj hy
        omega
      · refine ⟨i + 1, by simpa using hi, ?_⟩
        intro j y hj hy
        cases j with
        | zero =>
          simp at hy
          rw [← hy]
          exact hlt
        | succ j' =>
          simp only [List.getElem?_cons_succ] at hy
          exact hjs j' y (by omega) hy

/-- Witness for C10 at `docC10`: with weights tied at 5, the first-inserted
style `(12, 0)` is selected. -/
theorem C10_body_style_first_max_witness :
    most_common1 histC10 = some ((12, 0), 5) ∧
    (((12, 0), 5) : StyleKey × Nat) ∈ histC10 ∧
    ∃ i : Nat, histC10[i]? = some ((12, 0), 5) ∧
      ∀ (j : Nat) (y : StyleKey × Nat), j < i → histC10[j]? = some y → y.2 < 5 := by
  have h := C10_body_style_first_max docC10 histC10 blocksC10 "\n" ((12, 0), 5)
    (by decide) (by decide)
  exact ⟨by decide, h.1, h.2.2⟩

/-- C2: a block that survives the leader-dot filter, has no bullet line, and
carries a heading style is emitted with numeric level
`(count of distinct heading sizes) - (rank of its size in the
descending-sorted distinct heading sizes)`; one outline entry and one heading
content-section are appended, both carrying this level (the outline entry as
the label `"H<level>"`); the level is between 1 and the distinct-size count,
the largest size gets the highest level and the smallest gets level 1. -/
theorem C2_heading_level (hs : List StyleKey) (b : ScannedBlock) (acc : AsmAcc)
    (hdots : ((pyStripL b.text.data).all (fun c => c = '.')) = false)
    (hnb : ((splitLines b.text.data).any (fun l => (bulletMatchL l).isSome)) = false)
    (hmem : b.style ∈ hs) :
    assembleBlock hs (sorted_heading_sizes hs) acc b =
      (acc.1 ++ [⟨"heading", b.text, b.page, b.bbox,
          headingLevel (sorted_heading_sizes hs) b.style.1⟩],
       acc.2.1 ++ [⟨"H" ++ toString (headingLevel (sorted_heading_sizes hs) b.style.1),
          b.text, (b.page : Int)⟩],
       acc.2.2)
    ∧ headingLevel (sorted_heading_sizes hs) b.style.1 =
        ((sorted_heading_sizes hs).length : Int)
          - (listIndex b.style.1 (sorted_heading_sizes hs) : Int)
    ∧ 1 ≤ headingLevel (sorted_heading_sizes hs) b.style.1
    ∧ headingLevel (sorted_heading_sizes hs) b.style.1 ≤ ((sorted_heading_sizes hs).length : Int)
    ∧ ((sorted_heading_sizes hs).head? = some b.style.1 →
        headingLevel (sorted_heading_sizes hs) b.style.1 = ((sorted_heading_sizes hs).length : Int))
    ∧ ((sorted_heading_sizes hs).getLast? = some b.style.1 →
        headingLevel (sorted_heading_sizes hs) b.style.1 = 1) := by
  have hsz : b.style.1 ∈ sorted_heading_sizes hs :=
    (sorted_heading_sizes_mem hs _).mpr (List.mem_map_of_mem Prod.fst hmem)
  have hidx : listIndex b.style.1 (sorted_heading_sizes hs) < (sorted_heading_sizes hs).length :=
    listIndex_lt_length hsz
  refine ⟨?_, ?_, ?_, ?_, ?_, ?_⟩
  · rw [assembleBlock]
    simp only [hdots, Bool.false_eq_true, if_false, hnb, decide_eq_true hmem, if_true]
  · rw [headingLevel, level_map_length]
  · rw [headingLevel, level_map_length]
    omega
  · rw [headingLevel, level_map_length]
    omega
  · intro hh
    cases hs' : sorted_heading_sizes hs with
    | nil => rw [hs'] at hh; cases hh
    | cons s t =>
      rw [hs'] at hh
      simp only [List.head?_cons, Option.some.injEq] at hh
      have hz : listIndex b.style.1 (s :: t) = 0 := by
        rw [listIndex, if_pos hh]
      rw [headingLevel, level_map_length, hz]
      simp
  · intro hl
    have hli := listIndex_getLast (sorted_heading_sizes_pairwise hs) hl
    rw [headingLevel, level_map_length, hli]
    omega

/-- Witness for C2: heading styles of sizes 16 and 14; a block of size 14 (the
smallest) gets level 1, with outline label "H1". -/
theorem C2_heading_level_witness :
    assembleBlock [((16 : Int), (0 : Nat)), (14, 0)]
        (sorted_heading_sizes [((16 : Int), (0 : Nat)), (14, 0)]) ([], [], [])
        ⟨(14, 0), "Title", 1, bbW⟩ =
      ([⟨"heading", "Title", 1, bbW, 1⟩], [⟨"H1", "Title", 1⟩], [])
    ∧ headingLevel (sorted_heading_sizes [((16 : Int), (0 : Nat)), (14, 0)]) 14 = 1 := by
  have h := C2_heading_level [((16 : Int), (0 : Nat)), (14, 0)] ⟨(14, 0), "Title", 1, bbW⟩
    ([], [], []) (by decide) (by decide) (by decide)
  refine ⟨?_, h.2.2.2.2.2 (by decide)⟩
  rw [h.1]
  decide

/-- C3: the level-label map pairs the distinct heading font sizes, sorted
descending, with dense labels "H1".."Hn" in order ("H1" on the largest size);
its size equals the number of distinct heading font sizes, and two heading
styles sharing a font size (regardless of emphasis) look up the same level. -/
theorem C3_level_map_labels (hs : List StyleKey) :
    (level_map (sorted_heading_sizes hs)).length = ((hs.map Prod.fst).dedup).length
    ∧ (∀ i : Nat, (level_map (sorted_heading_sizes hs))[i]? =
        ((sorted_heading_sizes hs)[i]?).map (fun s => (s, "H" ++ toString (i + 1))))
    ∧ ((level_map (sorted_heading_sizes hs)).map Prod.fst).Pairwise (fun a b => a > b)
    ∧ (sorted_heading_sizes hs ≠ [] →
        ∃ m rest, level_map (sorted_heading_sizes hs) = (m, "H1") :: rest ∧ ∀ x ∈ hs, x.1 ≤ m)
    ∧ (∀ s t : StyleKey, s ∈ hs → t ∈ hs → s.1 = t.1 →
        (level_map (sorted_heading_sizes hs)).find? (fun p => p.1 == s.1) =
          (level_map (sorted_heading_sizes hs)).find? (fun p => p.1 == t.1)) := by
  have hpw := sorted_heading_sizes_pairwise hs
  have hnodup : (sorted_heading_sizes hs).Nodup := hpw.imp (fun h => ne_of_gt h)
  refine ⟨?_, ?_, ?_, ?_, ?_⟩
  · rw [level_map_length]
    have hperm : List.Perm (sorted_heading_sizes hs) ((hs.map Prod.fst).dedup) := by
      apply (List.perm_ext_iff_of_nodup hnodup (List.nodup_dedup _)).mpr
      intro a
      rw [List.mem_dedup, sorted_heading_sizes_mem]
    exact hperm.length_eq
  · intro i
    simpa using levelMapAux_getElem? (sorted_heading_sizes hs) 0 i
  · rw [level_map, levelMapAux_map_fst]
    exact hpw
  · intro hne
    cases hsz : sorted_heading_sizes hs with
    | nil => exact absurd hsz hne
    | cons m t =>
      refine ⟨m, levelMapAux 1 t, ?_, ?_⟩
      · have hH1 : "H" ++ toString (0 + 1) = "H1" := by decide
        rw [level_map, levelMapAux, hH1]
      · intro x hx
        have hx1 : x.1 ∈ sorted_heading_sizes hs :=
          (sorted_heading_sizes_mem hs _).mpr (List.mem_map_of_mem Prod.fst hx)
        rw [hsz] at hx1
        rcases List.mem_cons.mp hx1 with h | h
        · exact le_of_eq h
        · have hpw' := hpw
          rw [hsz, List.pairwise_cons] at hpw'
          exact le_of_lt (hpw'.1 x.1 h)
  · intro s t hsm htm hst
    rw [hst]

/-- Heading styles of sizes 16, 12 (emphatic) and 12 (plain), for the C3
witness. -/
def hsC3 : List StyleKey := [(16, 0), (12, 1), (12, 0)]

/-- Witness for C3 at `hsC3`: two distinct sizes, "H1" on the largest, and the
two size-12 styles share a level. -/
theorem C3_level_map_labels_witness :
    (level_map (sorted_heading_sizes hsC3)).length = ((hsC3.map Prod.fst).dedup).length
    ∧ (∃ m rest, level_map (sorted_heading_sizes hsC3) = (m, "H1") :: rest ∧
        ∀ x ∈ hsC3, x.1 ≤ m)
    ∧ (level_map (sorted_heading_sizes hsC3)).find? (fun p => p.1 == ((12 : Int), (1 : Nat)).1) =
        (level_map (sorted_heading_sizes hsC3)).find? (fun p => p.1 == ((12 : Int), (0 : Nat)).1) := by
  have h := C3_level_map_labels hsC3
  exact ⟨h.1, h.2.2.2.1 (by decide),
    h.2.2.2.2 (12, 1) (12, 0) (by decide) (by decide) rfl⟩

/-- C4: a block one of whose lines is "• Buy milk" takes the list branch of
the assembler (list precedence over heading and semantic classification): the
emitted content sections are exactly one list-item per bullet-matching line
at level 0 (no outline entry, no heading or paragraph section), and one of
them is the list-item with content "Buy milk". -/
theorem C4_bullet_precedence (hs : List StyleKey) (sizes : List Int) (acc : AsmAcc)
    (b : ScannedBlock) (h : "• Buy milk".data ∈ splitLines b.text.data) :
    assembleBlock hs sizes acc b =
      (acc.1 ++ (splitLines b.text.data).filterMap
          (fun l => (bulletMatchL l).map
            (fun g => (⟨"list_item", String.mk (pyStripL g), b.page, b.bbox, 0⟩ : ContentSection))),
       acc.2.1,
       acc.2.2 ++ (splitLines b.text.data).filterMap
          (fun l => (bulletMatchL l).map
            (fun g => (⟨b.page, [String.mk (pyStripL g)]⟩ : ListRec))))
    ∧ (⟨"list_item", "Buy milk", b.page, b.bbox, 0⟩ : ContentSection) ∈
        (splitLines b.text.data).filterMap
          (fun l => (bulletMatchL l).map
            (fun g => (⟨"list_item", String.mk (pyStripL g), b.page, b.bbox, 0⟩ : ContentSection)))
    ∧ ∀ s ∈ (splitLines b.text.data).filterMap
          (fun l => (bulletMatchL l).map
            (fun g => (⟨"list_item", String.mk (pyStripL g), b.page, b.bbox, 0⟩ : ContentSection))),
        s.type = "list_item" ∧ s.level = 0 := by
  have hbul : ('•' : Char) ∈ b.text.data :=
    mem_of_mem_splitLines h (by decide)
  have hdots : ((pyStripL b.text.data).all (fun c => c = '.')) = false := by
    by_contra hcon
    rw [Bool.not_eq_false] at hcon
    have hx := List.all_eq_true.mp hcon '•' (mem_pyStripL (by decide) hbul)
    simp at hx
  have hany : ((splitLines b.text.data).any (fun l => (bulletMatchL l).isSome)) = true :=
    List.any_eq_true.mpr ⟨_, h, by decide⟩
  have hbranch : assembleBlock hs sizes acc b =
      listFold (splitLines b.text.data) b.page b.bbox acc := by
    rw [assembleBlock]
    simp only [hdots, Bool.false_eq_true, if_false, hany, if_true]
  refine ⟨?_, ?_, ?_⟩
  · rw [hbranch, listFold_eq]
  · apply List.mem_filterMap.mpr
    refine ⟨"• Buy milk".data, h, ?_⟩
    have hb : bulletMatchL "• Buy milk".data = some "Buy milk".data := by decide
    rw [hb, Option.map_some']
    have hmk : String.mk (pyStripL "Buy milk".data) = "Buy milk" := by decide
    rw [hmk]
  · intro s hsm
    obtain ⟨l, hl, hsl⟩ := List.mem_filterMap.mp hsm
    cases hbm : bulletMatchL l with
    | none => rw [hbm] at hsl; cases hsl
    | some g =>
      rw [hbm, Option.map_some'] at hsl
      injection hsl with hsl
      rw [← hsl]
      exact ⟨rfl, rfl⟩

/-- Witness for C4: a single-line "• Buy milk" block yields exactly the
list-item section and list record. -/
theorem C4_bullet_precedence_witness :
    assembleBlock [] [] ([], [], []) ⟨(10, 0), "• Buy milk", 1, bbW⟩ =
      ([⟨"list_item", "Buy milk", 1, bbW, 0⟩], [], [⟨1, ["Buy milk"]⟩]) := by
  have h := C4_bullet_precedence [] [] ([], [], []) ⟨(10, 0), "• Buy milk", 1, bbW⟩ (by decide)
  rw [h.1]
  decide

theorem assembleBlock_lists_sub (hs : List StyleKey) (sizes : List Int) (acc : AsmAcc)
    (b : ScannedBlock) :
    ∀ r ∈ (assembleBlock hs sizes acc b).2.2, r ∈ acc.2.2 ∨ ∃ t, r.items = [t] := by
  intro r hr
  by_cases h1 : ((pyStripL b.text.data).all (fun c => c = '.')) = true
  · rw [assembleBlock, if_pos h1] at hr
    exact Or.inl hr
  · by_cases h2 : ((splitLines b.text.data).any (fun l => (bulletMatchL l).isSome)) = true
    · rw [assembleBlock] at hr
      simp only [if_neg h1, h2, if_true] at hr
      rw [listFold_eq] at hr
      rcases List.mem_append.mp hr with h | h
      · exact Or.inl h
      · right
        obtain ⟨l, hl, hsl⟩ := List.mem_filterMap.mp h
        cases hbm : bulletMatchL l with
        | none => rw [hbm] at hsl; cases hsl
        | some g =>
          rw [hbm, Option.map_some'] at hsl
          injection hsl with hsl
          rw [← hsl]
          exact ⟨_, rfl⟩
    · rw [assembleBlock] at hr
      simp only [if_neg h1, if_neg h2] at hr
      by_cases h3 : decide (b.style ∈ hs) = true
      · rw [if_pos h3] at hr
        exact Or.inl hr
      · rw [if_neg h3] at hr
        exact Or.inl hr

theorem foldl_assembleBlock_lists (hs : List StyleKey) (sizes : List Int) :
    ∀ (blocks : List ScannedBlock) (acc : AsmAcc),
      (∀ r ∈ acc.2.2, ∃ t, r.items = [t]) →
      ∀ r ∈ (blocks.foldl (assembleBlock hs sizes) acc).2.2, ∃ t, r.items = [t] := by
  intro blocks
  induction blocks with
  | nil => intro acc hacc r hr; exact hacc r hr
  | cons b bs ih =>
    intro acc hacc r hr
    rw [List.foldl_cons] at hr
    refine ih (assembleBlock hs sizes acc b) ?_ r hr
    intro r' hr'
    rcases assembleBlock_lists_sub hs sizes acc b r' hr' with h | h
    · exact hacc r' h
    · exact h


/-- C9: every record of the lists output holds exactly one item (its items
field is a singleton), and within a list block one singleton record is
appended per bullet-matching line, so several matching lines give several
singleton records rather than one multi-item record. -/
theorem C9_singleton_list_records :
    (∀ (d : Doc) (secs : List ContentSection) (outl : List OutlineEntry) (ft : String)
        (lsts : List ListRec),
      extract_content_and_outline d = some (secs, outl, ft, lsts) →
      ∀ r ∈ lsts, ∃ t, r.items = [t])
    ∧ ∀ (hs : List StyleKey) (sizes : List Int) (acc : AsmAcc) (b : ScannedBlock),
        ((pyStripL b.text.data).all (fun c => c = '.')) = false →
        ((splitLines b.text.data).any (fun l => (bulletMatchL l).isSome)) = true →
        (assembleBlock hs sizes acc b).2.2 =
          acc.2.2 ++ (splitLines b.text.data).filterMap
            (fun l => (bulletMatchL l).map
              (fun g => (⟨b.page, [String.mk (pyStripL g)]⟩ : ListRec))) := by
  constructor
  · intro d secs outl ft lsts hx r hr
    rw [extract_content_and_outline] at hx
    split at hx
    · cases hx
    · split at hx
      · simp only [Option.some.injEq, Prod.mk.injEq] at hx
        obtain ⟨-, -, -, h4⟩ := hx
        rw [← h4] at hr
        cases hr
      · simp only [Option.some.injEq, Prod.mk.injEq] at hx
        obtain ⟨-, -, -, h4⟩ := hx
        rw [← h4] at hr
        exact foldl_assembleBlock_lists _ _ _ ([], [], [])
          (by intro r' hr'; cases hr') r hr
  · intro hs sizes acc b hdots hany
    rw [assembleBlock]
    simp only [hdots, Bool.false_eq_true, if_false, hany, if_true]
    rw [listFold_eq]

/-- A document with one two-bullet block, for the C9 witness. -/
def docC9 : Doc :=
  { metaTitle := none
    toc := []
    pages := [{ text := "• a\n• b"
                widgets := []
                blocks := [
                  { btype := 0, bbox := bbW, lines := [⟨[⟨"• a\n• b", 10, 0⟩]⟩] }] }] }

/-- Witness for C9 at `docC9`: both emitted list records are singletons, and
the two bullet lines yield exactly two singleton records. -/
theorem C9_singleton_list_records_witness :
    (∃ t, (⟨1, ["a"]⟩ : ListRec).items = [t])
    ∧ (assembleBlock [] [] ([], [], []) ⟨(10, 0), "• a\n• b", 1, bbW⟩).2.2 =
        [] ++ (splitLines ("• a\n• b" : String).data).filterMap
          (fun l => (bulletMatchL l).map
            (fun g => (⟨1, [String.mk (pyStripL g)]⟩ : ListRec))) := by
  constructor
  · exact C9_singleton_list_records.1 docC9
      [⟨"list_item", "a", 1, bbW, 0⟩, ⟨"list_item", "b", 1, bbW, 0⟩] [] "• a\n• b"
      [⟨1, ["a"]⟩, ⟨1, ["b"]⟩] (by decide) ⟨1, ["a"]⟩ (by decide)
  · exact C9_singleton_list_records.2 [] [] ([], [], []) ⟨(10, 0), "• a\n• b", 1, bbW⟩
      (by decide) (by decide)

/-- C5 counterexample: when the table collaborator succeeds on page 1
(yielding one table) and raises on page 2, the document's table list is NOT
empty — the tables accumulated before the exception are kept, contradicting
"that document's output contains an empty table list". -/
theorem C5_tables_counterexample :
    extract_tables_with_pdfplumber
        (Except.ok [Except.ok [[[some "a", some "b"], [some "c", some "d"]]], Except.error ()]) =
      [⟨1, [["a", "b"], ["c", "d"]]⟩]
    ∧ ([⟨1, [["a", "b"], ["c", "d"]]⟩] : List Table) ≠ [] := ⟨by decide, by decide⟩

/-- C5 amended: if the table collaborator raises, the document keeps exactly
the tables accumulated before the failure (an empty list when the failure is
at `pdfplumber.open`, before any table), and the rest of the extraction
(title, outline, content sections, full text, form fields, static form
fields) proceeds unchanged: only the `tables` field is affected. -/
theorem C5_tables_amended (d : Doc) (stem : String)
    (o : Except Unit (List (Except Unit (List RawTable)))) (out : Output)
    (h : process_single_pdf d o stem = some out) :
    process_single_pdf d (Except.error ()) stem = some { out with tables := [] }
    ∧ ∀ (okPages : List (List RawTable)) (post : List (Except Unit (List RawTable))),
        o = Except.ok (okPages.map Except.ok ++ Except.error () :: post) →
        out.tables = extract_tables_with_pdfplumber (Except.ok (okPages.map Except.ok)) := by
  rw [process_single_pdf] at h
  cases hx : extract_content_and_outline d with
  | none => rw [hx] at h; cases h
  | some q =>
    rw [hx] at h
    obtain ⟨secs, outl, ft, lsts⟩ := q
    injection h with h
    constructor
    · rw [process_single_pdf, hx]
      rw [← h]
      rfl
    · intro okPages post ho
      rw [← h, ho]
      show extract_tables_with_pdfplumber
          (Except.ok (okPages.map Except.ok ++ Except.error () :: post)) =
        extract_tables_with_pdfplumber (Except.ok (okPages.map Except.ok))
      rw [extract_tables_with_pdfplumber, extract_tables_with_pdfplumber]
      exact tablesFromPages_append_error okPages post 0 []

/-- The raw table the collaborator yields on page 1 in the C5 witness. -/
def rawW : RawTable := [[some "a", some "b"], [some "c", some "d"]]

/-- The collaborator outcome used by the C5 witness: one good page, then an
exception. -/
def openedW : Except Unit (List (Except Unit (List RawTable))) :=
  Except.ok [Except.ok [rawW], Except.error ()]

/-- The output `process_single_pdf` produces for `docC9` with `openedW`. -/
def outW : Output :=
  { title := "s"
    outline := []
    content_sections := [⟨"list_item", "a", 1, bbW, 0⟩, ⟨"list_item", "b", 1, bbW, 0⟩]
    full_text := "• a\n• b"
    tables := [⟨1, [["a", "b"], ["c", "d"]]⟩]
    form_fields := []
    static_form_fields := [] }

/-- Witness for the amended C5 at `docC9`: an open failure empties only the
tables; a mid-stream failure keeps the page-1 table. -/
theorem C5_tables_amended_witness :
    process_single_pdf docC9 (Except.error ()) "s" = some { outW with tables := [] }
    ∧ outW.tables = extract_tables_with_pdfplumber
        (Except.ok (([[rawW]] : List (List RawTable)).map Except.ok)) := by
  have h := C5_tables_amended docC9 "s" openedW outW (by decide)
  exact ⟨h.1, h.2 [[rawW]] [] rfl⟩

/-- C6: the line "3. Enter your name" (alone or among other lines) yields the
static form field with number 3 and label "Enter your name"; the line
"Appendix 3. Notes" yields nothing — indeed no match can ever start at a
position where the text continues with "Appendix " followed by anything. -/
theorem C6_static_field_examples :
    extract_static_form_fields "3. Enter your name" =
      [⟨3, "Enter your name", "text_input", true⟩]
    ∧ extract_static_form_fields "Intro\n3. Enter your name\nend" =
        [⟨3, "Enter your name", "text_input", true⟩]
    ∧ extract_static_form_fields "Appendix 3. Notes" = []
    ∧ ∀ tail : List Char, matchAt ("Appendix 3. Notes".data ++ tail) = none := by
  refine ⟨by decide, by decide, by decide, ?_⟩
  intro tail
  have hla : lookaheadBlocks ("Appendix 3. Notes".data ++ tail) = true := rfl
  rw [matchAt, if_pos hla]

/-- C7: in "1. First\nⅫ. Bad\n2. Second" the pattern matches three candidates
(`Ⅻ` is in category N, hence matched by `\p{N}+`), but stripping non-digits
from "Ⅻ." leaves nothing, so `int` fails and that single candidate is
silently dropped while the fields for candidates 1 and 2 are still emitted. -/
theorem C7_numeral_parse_drop :
    (findMatches "1. First\nⅫ. Bad\n2. Second").length = 3
    ∧ (findMatches "1. First\nⅫ. Bad\n2. Second")[1]? = some ("Ⅻ.".data, "Bad".data)
    ∧ toField ("Ⅻ.".data, "Bad".data) = none
    ∧ extract_static_form_fields "1. First\nⅫ. Bad\n2. Second" =
        [⟨1, "First", "text_input", true⟩, ⟨2, "Second", "text_input", true⟩] :=
  ⟨by decide, by decide, by decide, by decide⟩

/-- C8 counterexample: with no metadata title and a non-empty outline whose
first sorted entry has empty text, the title is the file stem, not the text
of the first outline entry as the claim states. -/
theorem C8_title_counterexample :
    resolve_title none [⟨"H1", "", 1⟩] "doc1" = "doc1" ∧ ("doc1" : String) ≠ "" :=
  ⟨by decide, by decide⟩

/-- C8 amended: "Microsoft Word - Form123.docx" resolves to "Form123"; with
no usable metadata title and a non-empty outline, the title is the text of
the first outline entry under the lexicographic `(level, page)` sort, unless
that text is empty, in which case — as when the outline is empty — the title
falls back to the input file's stem. -/
theorem C8_title_amended :
    get_document_title (some "Microsoft Word - Form123.docx") = "Form123"
    ∧ (∀ (mt : Option String) (outl : List OutlineEntry) (stem : String) (e : OutlineEntry),
        get_document_title mt = "" → (sortOutline outl).head? = some e →
        resolve_title mt outl stem = (if e.text = "" then stem else e.text))
    ∧ (∀ (mt : Option String) (stem : String),
        get_document_title mt = "" → resolve_title mt [] stem = stem) := by
  refine ⟨by decide, ?_, ?_⟩
  · intro mt outl stem e hgt hhead
    have hne : outl.isEmpty = false := by
      cases houtl : outl with
      | nil =>
        rw [houtl] at hhead
        simp [sortOutline] at hhead
      | cons a as => rfl
    rw [resolve_title, hgt]
    simp only [hne, hhead]
    simp
  · intro mt stem hgt
    rw [resolve_title, hgt]
    rfl

/-- Witness for the amended C8 at concrete inputs. -/
theorem C8_title_amended_witness :
    get_document_title (some "Microsoft Word - Form123.docx") = "Form123"
    ∧ resolve_title none [⟨"H1", "Intro", 1⟩] "file" = "Intro"
    ∧ resolve_title none [] "file" = "file" := by
  refine ⟨C8_title_amended.1, ?_, C8_title_amended.2.2 none "file" rfl⟩
  have h2 := C8_title_amended.2.1 none [⟨"H1", "Intro", 1⟩] "file" ⟨"H1", "Intro", 1⟩
    rfl (by decide)
  rw [h2]
  decide
